import Mathlib

/-!
# Verification of plex-linker (`plex_linker/app.py`)

This file shallowly embeds the plex-linker program: the filename
classification engine (`TvFormat` and its five subclasses `Weekly`, `Mini`,
`Daily`, `Single`, `Other`), the helper `put_whitespace`, and the `Linker`
operations `make_links` and `delete_broken_links`, together with `main`.

Modelling conventions:

* Python strings are modelled as `List Char` (`Chars`).
* The five regular expressions are fixed and anchored (`^ ... $`, except the
  catch-all `.*`), so each is embedded directly as a matching function that
  enumerates candidate decompositions of the input in exactly Python's
  backtracking order (greedy `+`, leftmost alternative first); the first
  candidate is the match `re.search` produces.  Regex `.` matches any
  character except `'\n'`; `$` matches at the end of the string or just
  before one final `'\n'`; `\d` is modelled as an ASCII digit and
  `re.IGNORECASE` as identifying the ASCII letter cases (the exotic Unicode
  digits and case foldings that Python would additionally accept are outside
  the model).
* Fallible Python code (attribute access on `None`, `OSError`) is modelled
  with `Option` / `Except`.  Filesystem primitives are parameters
  (`FsOps`), so that error propagation can be stated for arbitrary errno
  values; a concrete flat-path filesystem model (`Fs`) instantiates them for
  the idempotence and round-trip claims.  Directories are modelled flat
  (`os.makedirs` creates the single requested path), which is all the
  claims exercise.
-/

abbrev Chars := List Char

/-- Model of `os.path.join(a, b)` for POSIX paths, as used by the program. -/
def joinPathC (a b : Chars) : Chars :=
  if b.head? = some '/' then b
  else if a = [] then b
  else if a.getLast? = some '/' then a ++ b
  else a ++ '/' :: b

/-- Model of `in_str.replace(a, b)` for single characters `a`, `b`. -/
def replace1 (a b : Char) (l : Chars) : Chars :=
  l.map fun c => if c = a then b else c

/-- Model of `put_whitespace`: replace periods, hyphens and underscores with spaces
(`in_str.replace(".", " ").replace("-", " ").replace("_", " ")`). -/
def put_whitespace (in_str : Chars) : Chars :=
  replace1 '_' ' ' (replace1 '-' ' ' (replace1 '.' ' ' in_str))

/-- Regex `.` (no DOTALL): any character except a newline. -/
def dot (c : Char) : Bool := c != '\n'

/-- Regex `[^\.]`: any character except a period (newlines included). -/
def nonDot (c : Char) : Bool := c != '.'

/-- Regex `.+$` at the end of a pattern: a nonempty run of non-newline
characters, where `$` matches at the end of the string or just before one
final newline. -/
def dotPlusEnd (l : Chars) : Bool :=
  let t := if l.getLast? = some '\n' then l.dropLast else l
  !t.isEmpty && t.all dot

/-- All ways to split `l` as `a ++ b` with `a` a nonempty run of characters
satisfying `p`, longest `a` first: the candidate list of a greedy `X+` for a
character class `X`, in Python's backtracking order. -/
def plusSplits (p : Char → Bool) (l : Chars) : List (Chars × Chars) :=
  let n := (l.takeWhile p).length
  (List.range n).map fun i => (l.take (n - i), l.drop (n - i))

/-- Candidate matches of `Weekly.title_format`, the anchored regex
`^(.+)\.S(\d+)E([^\.]+)\..+$` under `re.IGNORECASE`, in backtracking order:
each candidate is the triple of captures (name, season, episode). -/
def weeklyCands (l : Chars) : List (Chars × Chars × Chars) :=
  (plusSplits dot l).flatMap fun g1r =>
    match g1r.2 with
    | c0 :: c :: r2 =>
      if c0 = '.' ∧ (c = 'S' ∨ c = 's') then
        (plusSplits Char.isDigit r2).flatMap fun ser =>
          match ser.2 with
          | c2 :: r4 =>
            if c2 = 'E' ∨ c2 = 'e' then
              (plusSplits nonDot r4).flatMap fun epr =>
                match epr.2 with
                | c3 :: r6 =>
                  if c3 = '.' ∧ dotPlusEnd r6 then [(g1r.1, ser.1, epr.1)] else []
                | [] => []
            else []
          | [] => []
      else []
    | _ => []

/-- Candidate matches of `Mini.title_format`, the anchored regex
`^(.+)\.Part\.([^\.]+)\..+$` under `re.IGNORECASE`: captures (name, part). -/
def miniCands (l : Chars) : List (Chars × Chars) :=
  (plusSplits dot l).flatMap fun g1r =>
    match g1r.2 with
    | c0 :: p1 :: p2 :: p3 :: p4 :: c5 :: r2 =>
      if c0 = '.' ∧ (p1 = 'P' ∨ p1 = 'p') ∧ (p2 = 'A' ∨ p2 = 'a') ∧
          (p3 = 'R' ∨ p3 = 'r') ∧ (p4 = 'T' ∨ p4 = 't') ∧ c5 = '.' then
        (plusSplits nonDot r2).flatMap fun pr =>
          match pr.2 with
          | c6 :: r4 => if c6 = '.' ∧ dotPlusEnd r4 then [(g1r.1, pr.1)] else []
          | [] => []
      else []
    | _ => []

/-- Candidate matches of `Daily.title_format`, the anchored regex
`^(.+)\.(\d\d\d\d)\.(\d\d)\.(\d\d)\..+$`: captures (name, year, month, day). -/
def dailyCands (l : Chars) : List (Chars × Chars × Chars × Chars) :=
  (plusSplits dot l).flatMap fun g1r =>
    match g1r.2 with
    | c0 :: y1 :: y2 :: y3 :: y4 :: c5 :: m1 :: m2 :: c8 :: d1 :: d2 :: c11 :: r =>
      if c0 = '.' ∧ y1.isDigit ∧ y2.isDigit ∧ y3.isDigit ∧ y4.isDigit ∧
          c5 = '.' ∧ m1.isDigit ∧ m2.isDigit ∧ c8 = '.' ∧ d1.isDigit ∧
          d2.isDigit ∧ c11 = '.' ∧ dotPlusEnd r then
        [(g1r.1, [y1, y2, y3, y4], [m1, m2], [d1, d2])]
      else []
    | _ => []

/-- Candidate matches of `Single.title_format`, the anchored regex
`^(.+)\.(\d\d\d\d)\..+$`: captures (name, year). -/
def singleCands (l : Chars) : List (Chars × Chars) :=
  (plusSplits dot l).flatMap fun g1r =>
    match g1r.2 with
    | c0 :: y1 :: y2 :: y3 :: y4 :: c5 :: r =>
      if c0 = '.' ∧ y1.isDigit ∧ y2.isDigit ∧ y3.isDigit ∧ y4.isDigit ∧
          c5 = '.' ∧ dotPlusEnd r then
        [(g1r.1, [y1, y2, y3, y4])]
      else []
    | _ => []

/-- The five `TvFormat` subclasses. -/
inductive TvFormat where
  | Weekly
  | Mini
  | Daily
  | Single
  | Other
deriving DecidableEq, Repr

/-- The capture groups of `re.search(cls.title_format, title, re.IGNORECASE)`
in group order, or `none` when the pattern does not match.  `Other`'s pattern
`.*` matches every string and has no groups. -/
def TvFormat.caps : TvFormat → Chars → Option (List Chars)
  | .Weekly, l => ((weeklyCands l).head?).map fun x => [x.1, x.2.1, x.2.2]
  | .Mini, l => ((miniCands l).head?).map fun x => [x.1, x.2]
  | .Daily, l => ((dailyCands l).head?).map fun x => [x.1, x.2.1, x.2.2.1, x.2.2.2]
  | .Single, l => ((singleCands l).head?).map fun x => [x.1, x.2]
  | .Other, _ => some []

/-- Model of `re.search(format.title_format, title, re.IGNORECASE) is not None`. -/
def TvFormat.matches (f : TvFormat) (l : Chars) : Bool :=
  (f.caps l).isSome

/-- Model of `cls.groups`, the field names of each subclass. -/
def TvFormat.groups : TvFormat → List String
  | .Weekly => [("name"), ("season"), ("episode")]
  | .Mini => [("name"), ("part")]
  | .Daily => [("name"), ("year"), ("month"), ("day")]
  | .Single => [("name"), ("year")]
  | .Other => []

/-- The tuple `formats = (Weekly, Mini, Daily, Single, Other)` tried in order
by `TvFormat.get`. -/
def TvFormat.formats : List TvFormat :=
  [.Weekly, .Mini, .Daily, .Single, .Other]

/-- Model of `TvFormat.get(title)`: the first format in `formats` whose pattern
matches `title` (the code returns `None` after the loop, which the trailing
comment notes should never happen). -/
def TvFormat.get (title : Chars) : Option TvFormat :=
  TvFormat.formats.find? fun f => f.matches title

/-- Model of `TvFormat.metadata(title)`: the dictionary mapping each of `cls.groups`
to the corresponding capture, as an insertion-ordered association list;
`none` models the `return None` branch when the pattern does not match. -/
def TvFormat.metadata (f : TvFormat) (title : Chars) : Option (List (String × Chars)) :=
  (f.caps title).map fun cs => f.groups.zip cs

/-- Model of `Weekly.plex_name(title)`:
`"{} - s{}e{} - {}".format(put_whitespace(name), season, episode, title)`.
`none` models the crash on a non-matching title. -/
def Weekly.plex_name (title : Chars) : Option Chars :=
  ((weeklyCands title).head?).map fun x =>
    put_whitespace x.1 ++ (" - s").data ++ x.2.1 ++ ("e").data ++ x.2.2 ++
      (" - ").data ++ title

/-- Model of `Weekly.plex_dir(title)`:
`os.path.join(put_whitespace(name), "Season {}".format(season))`. -/
def Weekly.plex_dir (title : Chars) : Option Chars :=
  ((weeklyCands title).head?).map fun x =>
    joinPathC (put_whitespace x.1) (("Season ").data ++ x.2.1)

/-- Model of `Mini.plex_name(title)`:
`"{} - s01e{} - {}".format(put_whitespace(name), part, title)`. -/
def Mini.plex_name (title : Chars) : Option Chars :=
  ((miniCands title).head?).map fun x =>
    put_whitespace x.1 ++ (" - s01e").data ++ x.2 ++ (" - ").data ++ title

/-- Model of `Mini.plex_dir(title)`: `os.path.join(put_whitespace(name), "Season 01")`. -/
def Mini.plex_dir (title : Chars) : Option Chars :=
  ((miniCands title).head?).map fun x =>
    joinPathC (put_whitespace x.1) (("Season 01").data)

/-- Model of `Daily.plex_name(title)`:
`"{} - {} {} {} - {}".format(put_whitespace(name), year, month, day, title)`. -/
def Daily.plex_name (title : Chars) : Option Chars :=
  ((dailyCands title).head?).map fun x =>
    put_whitespace x.1 ++ (" - ").data ++ x.2.1 ++ (" ").data ++ x.2.2.1 ++
      (" ").data ++ x.2.2.2 ++ (" - ").data ++ title

/-- Model of `Daily.plex_dir(title)`:
`os.path.join(put_whitespace(name), "{}".format(year))`. -/
def Daily.plex_dir (title : Chars) : Option Chars :=
  ((dailyCands title).head?).map fun x =>
    joinPathC (put_whitespace x.1) x.2.1

/-- Model of `Single.plex_name(title)`:
`"{} - {} - {}".format(put_whitespace(name), year, title)`. -/
def Single.plex_name (title : Chars) : Option Chars :=
  ((singleCands title).head?).map fun x =>
    put_whitespace x.1 ++ (" - ").data ++ x.2 ++ (" - ").data ++ title

/-- Model of `Single.plex_dir(title)`:
`os.path.join(put_whitespace(name), put_whitespace("{}".format(year)))`. -/
def Single.plex_dir (title : Chars) : Option Chars :=
  ((singleCands title).head?).map fun x =>
    joinPathC (put_whitespace x.1) (put_whitespace x.2)

/-- Model of `Other.plex_name(title)`: returns `title` unchanged (never fails). -/
def Other.plex_name (title : Chars) : Option Chars :=
  some title

/-- Model of `Other.plex_dir(title)`: the literal `"Uncategorized"` (never fails). -/
def Other.plex_dir (_title : Chars) : Option Chars :=
  some (("Uncategorized").data)

/-- Dynamic dispatch of `plex_name` over the subclasses. -/
def TvFormat.plex_name : TvFormat → Chars → Option Chars
  | .Weekly, t => Weekly.plex_name t
  | .Mini, t => Mini.plex_name t
  | .Daily, t => Daily.plex_name t
  | .Single, t => Single.plex_name t
  | .Other, t => Other.plex_name t

/-- Dynamic dispatch of `plex_dir` over the subclasses. -/
def TvFormat.plex_dir : TvFormat → Chars → Option Chars
  | .Weekly, t => Weekly.plex_dir t
  | .Mini, t => Mini.plex_dir t
  | .Daily, t => Daily.plex_dir t
  | .Single, t => Single.plex_dir t
  | .Other, t => Other.plex_dir t

/-- Model of `Show(name, path).plex_dir()`: `self.format` is `TvFormat.get(name)`;
`none` models the crash when `get` were to return `None`. -/
def Show.plex_dir (name : Chars) : Option Chars :=
  (TvFormat.get name).bind fun f => f.plex_dir name

/-- Model of `Show(name, path).plex_name()`. -/
def Show.plex_name (name : Chars) : Option Chars :=
  (TvFormat.get name).bind fun f => f.plex_name name

/-! ## The Linker and its filesystem model -/

/-- Model of `errno.EEXIST`. -/
def EEXIST : Nat := 17

/-- Model of `errno.ENOENT`. -/
def ENOENT : Nat := 2

/-- A Python exception as it escapes the program: an `OSError` carrying an
errno, or the `TypeError` that subscripting `None` would raise. -/
inductive PyErr where
  | osErr : Nat → PyErr
  | typeErr : PyErr
deriving DecidableEq, Repr

/-- Decidable equality of `Except` results, for evaluating runs of the
modelled operations on concrete inputs. -/
instance exceptDecEq {e a : Type} [DecidableEq e] [DecidableEq a] :
    DecidableEq (Except e a) := fun x y =>
  match x, y with
  | .ok v, .ok w =>
    if h : v = w then isTrue (by rw [h]) else isFalse fun hc => h (Except.ok.inj hc)
  | .error v, .error w =>
    if h : v = w then isTrue (by rw [h]) else isFalse fun hc => h (Except.error.inj hc)
  | .ok _, .error _ => isFalse fun hc => Except.noConfusion hc
  | .error _, .ok _ => isFalse fun hc => Except.noConfusion hc

/-- The filesystem primitives `make_links` calls, over an abstract
filesystem state `σ`; each may fail with an errno. -/
structure FsOps (σ : Type) where
  makedirs : Chars → σ → Except Nat σ
  symlink : Chars → Chars → σ → Except Nat σ

/-- Model of `create_path(path)`: `os.makedirs(path)`, swallowing the exception
exactly when its errno is `EEXIST` and re-raising it otherwise. -/
def create_path (ops : FsOps σ) (path : Chars) (s : σ) : Except Nat σ :=
  match ops.makedirs path s with
  | .ok s2 => .ok s2
  | .error e => if e ≠ EEXIST then .error e else .ok s

/-- The `try: os.symlink(pathname, plex_pathname) except OSError` block of
`make_links`: the `EEXIST` failure is swallowed (the loop continues with the
state unchanged), any other errno is re-raised. -/
def try_symlink (ops : FsOps σ) (pathname plex_pathname : Chars) (s : σ) :
    Except Nat σ :=
  match ops.symlink pathname plex_pathname s with
  | .ok s2 => .ok s2
  | .error e => if e ≠ EEXIST then .error e else .ok s

/-- Model of `Linker(source_dir, target_dir).make_links()`.  `walk` is the sequence of
`(path, name)` pairs that `os.walk(source_dir)` yields (for each directory
`path`, each file `name` found in it).  For each file: classify `name`,
ensure the plex directory exists (`create_path`), then attempt the symlink
(`try_symlink`), and continue with the next file; an uncaught `OSError`
aborts the whole loop.  The `TypeError` case models the crash the code's
comment rules out (`TvFormat.get` returning `None`). -/
def make_links (ops : FsOps σ) (target_dir : Chars)
    (walk : List (Chars × Chars)) (s : σ) : Except PyErr σ :=
  match walk with
  | [] => .ok s
  | (path, name) :: rest =>
    match Show.plex_dir name, Show.plex_name name with
    | some pdir, some pname =>
      let pathname := joinPathC path name
      let plex_path := joinPathC target_dir pdir
      let plex_pathname := joinPathC plex_path pname
      (Except.mapError PyErr.osErr (create_path ops plex_path s)).bind fun s1 =>
        (Except.mapError PyErr.osErr
            (try_symlink ops pathname plex_pathname s1)).bind fun s2 =>
          make_links ops target_dir rest s2
    | _, _ => .error .typeErr

/-- The `try: os.stat(pathname) except OSError` block of
`delete_broken_links`: on an `ENOENT` failure the entry is removed
(`os.remove`), any other errno is re-raised, a successful stat leaves the
state unchanged. -/
def try_stat (stat : Chars → σ → Except Nat Unit) (rm : Chars → σ → σ)
    (pathname : Chars) (s : σ) : Except Nat σ :=
  match stat pathname s with
  | .ok _ => .ok s
  | .error e => if e ≠ ENOENT then .error e else .ok (rm pathname s)

/-- Model of `Linker(source_dir, target_dir).delete_broken_links()` over abstract
`os.stat` and `os.remove` primitives.  `walk` is the list of joined
pathnames `os.walk(target_dir)` yields; for each, `os.stat` is attempted and
the entry removed exactly when stat fails with `ENOENT`; any other `OSError`
aborts the loop. -/
def delete_broken_links (stat : Chars → σ → Except Nat Unit)
    (rm : Chars → σ → σ) (walk : List Chars) (s : σ) : Except PyErr σ :=
  match walk with
  | [] => .ok s
  | pathname :: rest =>
    (Except.mapError PyErr.osErr (try_stat stat rm pathname s)).bind fun s1 =>
      delete_broken_links stat rm rest s1

/-- An entry of the concrete target-tree model: a directory or a symbolic
link holding its link value (the source pathname it points at). -/
inductive Entry where
  | dir : Entry
  | link : Chars → Entry
deriving DecidableEq, Repr

/-- The concrete target-tree state: an association list from (flat) paths to
entries, in creation order. -/
abbrev Fs := List (Chars × Entry)

/-- Does any entry exist at path `p`? -/
def present (fs : Fs) (p : Chars) : Bool :=
  fs.any fun e => decide (e.1 = p)

/-- Model of `os.makedirs` in the concrete model: fails with `EEXIST` when the path
already exists, otherwise records a directory. -/
def fsMakedirs (p : Chars) (fs : Fs) : Except Nat Fs :=
  if present fs p then .error EEXIST else .ok (fs ++ [(p, .dir)])

/-- Model of `os.symlink(src, dst)` in the concrete model: fails with `EEXIST` when
anything exists at `dst`, otherwise records a link to `src`. -/
def fsSymlink (src dst : Chars) (fs : Fs) : Except Nat Fs :=
  if present fs dst then .error EEXIST else .ok (fs ++ [(dst, .link src)])

/-- The concrete primitives for `make_links`. -/
def fsOps : FsOps Fs := ⟨fsMakedirs, fsSymlink⟩

/-- The entry at path `p`, if any. -/
def fsLookup (fs : Fs) (p : Chars) : Option Entry :=
  (fs.find? fun e => decide (e.1 = p)).map fun e => e.2

/-- Model of `os.stat` in the concrete model: follows a link and succeeds exactly
when its value is among the existing source files `srcFiles`; stat of a
directory succeeds; stat of a missing path fails with `ENOENT`. -/
def fsStat (srcFiles : List Chars) (p : Chars) (fs : Fs) : Except Nat Unit :=
  match fsLookup fs p with
  | some (.link v) => if v ∈ srcFiles then .ok () else .error ENOENT
  | some .dir => .ok ()
  | none => .error ENOENT

/-- Model of `os.remove` in the concrete model. -/
def fsRemove (p : Chars) (fs : Fs) : Fs :=
  fs.filter fun e => !decide (e.1 = p)

/-- The pathnames `os.walk(target_dir)` yields as files in the concrete
model: the link entries (directories are traversed, not yielded). -/
def walkTarget (fs : Fs) : List Chars :=
  fs.filterMap fun e =>
    match e.2 with
    | .link _ => some e.1
    | .dir => none

/-- Model of `delete_broken_links` instantiated with the concrete model, where the
existing source files are `srcs`. -/
def runDelete (srcs : List Chars) (fs : Fs) : Except PyErr Fs :=
  delete_broken_links (fsStat srcs) fsRemove (walkTarget fs) fs

/-- Does the concrete `os.stat` succeed on this entry? -/
def statKeep (srcs : List Chars) : Entry → Bool
  | .dir => true
  | .link v => decide (v ∈ srcs)

/-- Does the concrete `os.stat` succeed at path `q`? -/
def statOkB (srcs : List Chars) (fs : Fs) (q : Chars) : Bool :=
  match fsLookup fs q with
  | some e => statKeep srcs e
  | none => false

/-- Model of `main()` after argument parsing: `srcExists` and `dstExists` are the
results of the two `os.path.exists` checks; on a missing path `main` logs an
error and returns `1` without touching the filesystem; otherwise it runs
`make_links` then `delete_broken_links` (over the link paths present after
`make_links`, with the walked source files still existing) and returns
`None` (modelled `none`). -/
def App.main (srcExists dstExists : Bool) (destination : Chars)
    (walk : List (Chars × Chars)) (fs : Fs) : Except PyErr (Option Nat × Fs) :=
  if srcExists = false then .ok (some 1, fs)
  else if dstExists = false then .ok (some 1, fs)
  else
    match make_links fsOps destination walk fs with
    | .error e => .error e
    | .ok fs1 =>
      match delete_broken_links
          (fsStat (walk.map fun pn => joinPathC pn.1 pn.2)) fsRemove
          (walkTarget fs1) fs1 with
      | .error e => .error e
      | .ok fs2 => .ok (none, fs2)

/-- The exit status of the installed `plex-linker` console script, which
runs `sys.exit(main())`: `None` exits `0`, an integer exits with that
value. -/
def console_script_exit : Option Nat → Nat
  | none => 0
  | some n => n

/-- The exit status of `python app.py ...`: the `if __name__ == "__main__"`
guard calls `main()` and discards its return value, so the interpreter
always exits `0` regardless of `main`'s result. -/
def run_as_script_exit (_r : Option Nat) : Nat := 0

/-! ## Proof-side helper definitions -/

/-- The plex directory of `name` as a total function (defaulting the
never-occurring `None` case). -/
def pdirD (name : Chars) : Chars := (Show.plex_dir name).getD []

/-- The plex filename of `name` as a total function. -/
def pnameD (name : Chars) : Chars := (Show.plex_name name).getD []

/-- The directory `make_links` ensures for a source file `name` under
`target_dir` `t`. -/
def pPath (t name : Chars) : Chars := joinPathC t (pdirD name)

/-- The link path `make_links` creates for a source file `name` under
`target_dir` `t`. -/
def pPathname (t name : Chars) : Chars := joinPathC (pPath t name) (pnameD name)

/-- One step of `make_links` on the concrete model, as a total function. -/
def mkStep (t : Chars) (fs : Fs) (pn : Chars × Chars) : Fs :=
  let pp := pPath t pn.2
  let ppn := pPathname t pn.2
  let fs1 := if present fs pp then fs else fs ++ [(pp, Entry.dir)]
  if present fs1 ppn then fs1 else fs1 ++ [(ppn, Entry.link (joinPathC pn.1 pn.2))]

/-- Model of `make_links` on the concrete model, as a total function. -/
def mkRun (t : Chars) (walk : List (Chars × Chars)) (fs : Fs) : Fs :=
  walk.foldl (mkStep t) fs

/-! ## Lemmas about the pattern matchers -/

theorem length_takeWhile_ge {p : Char → Bool} (a b : Chars)
    (h : ∀ c ∈ a, p c = true) : a.length ≤ ((a ++ b).takeWhile p).length := by
  induction a with
  | nil => exact Nat.zero_le _
  | cons c a ih =>
    rw [List.cons_append, List.takeWhile_cons_of_pos (h c (List.mem_cons_self c a))]
    simpa using ih fun x hx => h x (List.mem_cons_of_mem c hx)

theorem length_takeWhile_le' {p : Char → Bool} (l : Chars) :
    (l.takeWhile p).length ≤ l.length := by
  conv_rhs => rw [← List.takeWhile_append_dropWhile p l]
  rw [List.length_append]
  exact Nat.le_add_right _ _

theorem plusSplits_sound {p : Char → Bool} {l a b : Chars}
    (h : (a, b) ∈ plusSplits p l) :
    l = a ++ b ∧ a ≠ [] ∧ ∀ c ∈ a, p c = true := by
  unfold plusSplits at h
  obtain ⟨i, hi, heq⟩ := List.mem_map.mp h
  rw [List.mem_range] at hi
  obtain ⟨ha, hb⟩ := Prod.mk.injEq .. ▸ heq
  set n := (l.takeWhile p).length with hn
  have hk1 : 1 ≤ n - i := Nat.sub_pos_of_lt hi
  have hk2 : n - i ≤ n := Nat.sub_le n i
  have hnl : n ≤ l.length := length_takeWhile_le' l
  refine ⟨?_, ?_, ?_⟩
  · rw [← ha, ← hb, List.take_append_drop]
  · apply List.ne_nil_of_length_pos
    rw [← ha, List.length_take]
    exact lt_min hk1 (Nat.lt_of_lt_of_le hk1 (le_trans hk2 hnl))
  · intro c hc
    rw [← ha] at hc
    have htw : List.take (n - i) l = List.take (n - i) (l.takeWhile p) := by
      conv_lhs => rw [← List.takeWhile_append_dropWhile p l]
      exact List.take_append_of_le_length hk2
    rw [htw] at hc
    exact List.mem_takeWhile_imp (List.take_subset _ _ hc)

theorem plusSplits_complete {p : Char → Bool} {a : Chars} (b : Chars)
    (ha : a ≠ []) (hall : ∀ c ∈ a, p c = true) :
    (a, b) ∈ plusSplits p (a ++ b) := by
  unfold plusSplits
  set n := ((a ++ b).takeWhile p).length with hn
  have hle : a.length ≤ n := length_takeWhile_ge a b hall
  have hpos : 0 < a.length := List.length_pos.mpr ha
  refine List.mem_map.mpr ⟨n - a.length, List.mem_range.mpr ?_, ?_⟩
  · exact Nat.sub_lt (Nat.lt_of_lt_of_le hpos hle) hpos
  · rw [Nat.sub_sub_self hle, List.take_left, List.drop_left]

theorem weeklyCands_complete {name se ep r : Chars} {c c2 : Char}
    (h1 : name ≠ []) (h2 : ∀ ch ∈ name, dot ch = true)
    (hc : c = 'S' ∨ c = 's')
    (h3 : se ≠ []) (h4 : ∀ ch ∈ se, ch.isDigit = true)
    (hc2 : c2 = 'E' ∨ c2 = 'e')
    (h5 : ep ≠ []) (h6 : ∀ ch ∈ ep, nonDot ch = true)
    (h7 : dotPlusEnd r = true) :
    (name, se, ep) ∈ weeklyCands (name ++ '.' :: c :: (se ++ c2 :: (ep ++ '.' :: r))) := by
  unfold weeklyCands
  refine List.mem_flatMap.mpr ⟨(name, '.' :: c :: (se ++ c2 :: (ep ++ '.' :: r))),
    plusSplits_complete _ h1 h2, ?_⟩
  simp only
  rw [if_pos ⟨trivial, hc⟩]
  refine List.mem_flatMap.mpr ⟨(se, c2 :: (ep ++ '.' :: r)),
    plusSplits_complete _ h3 h4, ?_⟩
  simp only
  rw [if_pos hc2]
  refine List.mem_flatMap.mpr ⟨(ep, '.' :: r), plusSplits_complete _ h5 h6, ?_⟩
  simp only
  rw [if_pos ⟨trivial, h7⟩]
  exact List.mem_singleton.mpr rfl

theorem weeklyCands_sound {l : Chars} {x : Chars × Chars × Chars}
    (h : x ∈ weeklyCands l) :
    ∃ c c2 r, (c = 'S' ∨ c = 's') ∧ (c2 = 'E' ∨ c2 = 'e') ∧
      l = x.1 ++ '.' :: c :: (x.2.1 ++ c2 :: (x.2.2 ++ '.' :: r)) ∧
      x.1 ≠ [] ∧ (∀ ch ∈ x.1, dot ch = true) ∧
      x.2.1 ≠ [] ∧ (∀ ch ∈ x.2.1, ch.isDigit = true) ∧
      x.2.2 ≠ [] ∧ (∀ ch ∈ x.2.2, nonDot ch = true) ∧ dotPlusEnd r = true := by
  unfold weeklyCands at h
  obtain ⟨g1r, hg1, h⟩ := List.mem_flatMap.mp h
  obtain ⟨hl1, hne1, hall1⟩ := plusSplits_sound hg1
  split at h
  case _ c0 c r2 heq =>
    split at h
    case isTrue hif =>
      obtain ⟨ser, hse, h⟩ := List.mem_flatMap.mp h
      obtain ⟨hl2, hne2, hall2⟩ := plusSplits_sound hse
      split at h
      case _ c2 r4 heq2 =>
        split at h
        case isTrue hif2 =>
          obtain ⟨epr, hep, h⟩ := List.mem_flatMap.mp h
          obtain ⟨hl3, hne3, hall3⟩ := plusSplits_sound hep
          split at h
          case _ c3 r6 heq3 =>
            split at h
            case isTrue hif3 =>
              have hx := List.mem_singleton.mp h
              subst hx
              refine ⟨c, c2, r6, hif.2, hif2, ?_, hne1, hall1, hne2, hall2, hne3, hall3, hif3.2⟩
              rw [hl1, heq, hif.1, hl2, heq2, hl3, heq3, hif3.1]
            case isFalse hif3 => exact absurd h (List.not_mem_nil _)
          case _ heq3 => exact absurd h (List.not_mem_nil _)
        case isFalse hif2 => exact absurd h (List.not_mem_nil _)
      case _ heq2 => exact absurd h (List.not_mem_nil _)
    case isFalse hif => exact absurd h (List.not_mem_nil _)
  case _ heq => exact absurd h (List.not_mem_nil _)

theorem dailyCands_complete {name r : Chars} {y1 y2 y3 y4 m1 m2 d1 d2 : Char}
    (h1 : name ≠ []) (h2 : ∀ ch ∈ name, dot ch = true)
    (hy : y1.isDigit ∧ y2.isDigit ∧ y3.isDigit ∧ y4.isDigit)
    (hm : m1.isDigit ∧ m2.isDigit) (hd : d1.isDigit ∧ d2.isDigit)
    (h7 : dotPlusEnd r = true) :
    (name, [y1, y2, y3, y4], [m1, m2], [d1, d2]) ∈
      dailyCands (name ++ '.' :: y1 :: y2 :: y3 :: y4 :: '.' :: m1 :: m2 :: '.' ::
        d1 :: d2 :: '.' :: r) := by
  unfold dailyCands
  refine List.mem_flatMap.mpr ⟨(name, '.' :: y1 :: y2 :: y3 :: y4 :: '.' :: m1 :: m2 :: '.' ::
    d1 :: d2 :: '.' :: r), plusSplits_complete _ h1 h2, ?_⟩
  simp only
  rw [if_pos ⟨trivial, hy.1, hy.2.1, hy.2.2.1, hy.2.2.2, trivial, hm.1, hm.2, trivial, hd.1, hd.2, trivial, h7⟩]
  exact List.mem_singleton.mpr rfl

theorem singleCands_complete {name r : Chars} {y1 y2 y3 y4 : Char}
    (h1 : name ≠ []) (h2 : ∀ ch ∈ name, dot ch = true)
    (hy : y1.isDigit ∧ y2.isDigit ∧ y3.isDigit ∧ y4.isDigit)
    (h7 : dotPlusEnd r = true) :
    (name, [y1, y2, y3, y4]) ∈
      singleCands (name ++ '.' :: y1 :: y2 :: y3 :: y4 :: '.' :: r) := by
  unfold singleCands
  refine List.mem_flatMap.mpr ⟨(name, '.' :: y1 :: y2 :: y3 :: y4 :: '.' :: r),
    plusSplits_complete _ h1 h2, ?_⟩
  simp only
  rw [if_pos ⟨trivial, hy.1, hy.2.1, hy.2.2.1, hy.2.2.2, trivial, h7⟩]
  exact List.mem_singleton.mpr rfl

/-! ## Lemmas about classification -/

theorem matches_Other (l : Chars) : TvFormat.matches .Other l = true := rfl

theorem get_eq_ite (l : Chars) : TvFormat.get l =
    (if TvFormat.matches .Weekly l then some .Weekly
     else if TvFormat.matches .Mini l then some .Mini
     else if TvFormat.matches .Daily l then some .Daily
     else if TvFormat.matches .Single l then some .Single
     else some .Other) := by
  unfold TvFormat.get TvFormat.formats
  cases hW : TvFormat.matches .Weekly l <;>
    cases hM : TvFormat.matches .Mini l <;>
      cases hD : TvFormat.matches .Daily l <;>
        cases hS : TvFormat.matches .Single l <;>
          simp [List.find?_cons, hW, hM, hD, hS, matches_Other]

theorem matches_weekly_iff (l : Chars) :
    TvFormat.matches .Weekly l = true ↔ weeklyCands l ≠ [] := by
  unfold TvFormat.matches TvFormat.caps
  cases hc : (weeklyCands l).head? with
  | none => simp [List.head?_eq_none_iff.mp hc]
  | some x =>
    have : weeklyCands l ≠ [] := by
      intro he
      rw [he] at hc
      exact Option.noConfusion hc
    simp [this]

theorem matches_daily_iff (l : Chars) :
    TvFormat.matches .Daily l = true ↔ dailyCands l ≠ [] := by
  unfold TvFormat.matches TvFormat.caps
  cases hc : (dailyCands l).head? with
  | none => simp [List.head?_eq_none_iff.mp hc]
  | some x =>
    have : dailyCands l ≠ [] := by
      intro he
      rw [he] at hc
      exact Option.noConfusion hc
    simp [this]

theorem matches_single_iff (l : Chars) :
    TvFormat.matches .Single l = true ↔ singleCands l ≠ [] := by
  unfold TvFormat.matches TvFormat.caps
  cases hc : (singleCands l).head? with
  | none => simp [List.head?_eq_none_iff.mp hc]
  | some x =>
    have : singleCands l ≠ [] := by
      intro he
      rw [he] at hc
      exact Option.noConfusion hc
    simp [this]

theorem get_matches {l : Chars} {f : TvFormat} (h : TvFormat.get l = some f) :
    TvFormat.matches f l = true := by
  unfold TvFormat.get at h
  simpa using List.find?_some h

theorem isSome_omap {α β : Type} (f : α → β) (o : Option α) :
    (Option.map f o).isSome = o.isSome := by
  cases o <;> rfl

theorem get_total (l : Chars) :
    ∃ f, TvFormat.get l = some f ∧ TvFormat.matches f l = true := by
  rw [get_eq_ite]
  by_cases hW : TvFormat.matches .Weekly l
  · exact ⟨.Weekly, by rw [if_pos hW], hW⟩
  · rw [if_neg hW]
    by_cases hM : TvFormat.matches .Mini l
    · exact ⟨.Mini, by rw [if_pos hM], hM⟩
    · rw [if_neg hM]
      by_cases hD : TvFormat.matches .Daily l
      · exact ⟨.Daily, by rw [if_pos hD], hD⟩
      · rw [if_neg hD]
        by_cases hS : TvFormat.matches .Single l
        · exact ⟨.Single, by rw [if_pos hS], hS⟩
        · rw [if_neg hS]
          exact ⟨.Other, rfl, matches_Other l⟩

theorem plex_isSome {f : TvFormat} {l : Chars} (h : TvFormat.matches f l = true) :
    (TvFormat.plex_dir f l).isSome = true ∧ (TvFormat.plex_name f l).isSome = true := by
  cases f
  case Other => exact ⟨rfl, rfl⟩
  all_goals
    simp only [TvFormat.matches, TvFormat.caps, TvFormat.plex_dir, TvFormat.plex_name,
      Weekly.plex_dir, Weekly.plex_name, Mini.plex_dir, Mini.plex_name,
      Daily.plex_dir, Daily.plex_name, Single.plex_dir, Single.plex_name,
      isSome_omap] at h ⊢
  all_goals exact ⟨h, h⟩

theorem show_plex_total (name : Chars) :
    Show.plex_dir name = some (pdirD name) ∧ Show.plex_name name = some (pnameD name) := by
  obtain ⟨f, hf, hm⟩ := get_total name
  obtain ⟨hd, hn⟩ := plex_isSome hm
  obtain ⟨d, hd2⟩ := Option.isSome_iff_exists.mp hd
  obtain ⟨n, hn2⟩ := Option.isSome_iff_exists.mp hn
  have hsd : Show.plex_dir name = some d := by
    unfold Show.plex_dir
    rw [hf, Option.some_bind, hd2]
  have hsn : Show.plex_name name = some n := by
    unfold Show.plex_name
    rw [hf, Option.some_bind, hn2]
  refine ⟨?_, ?_⟩
  · rw [hsd, pdirD, hsd, Option.getD_some]
  · rw [hsn, pnameD, hsn, Option.getD_some]

/-! ## Lemmas about the concrete filesystem model and `make_links` -/

theorem present_append_iff (fs : Fs) (x : Chars × Entry) (p : Chars) :
    present (fs ++ [x]) p = (present fs p || decide (x.1 = p)) := by
  simp [present, List.any_append]


theorem create_path_fs (p : Chars) (fs : Fs) :
    create_path fsOps p fs = .ok (if present fs p then fs else fs ++ [(p, Entry.dir)]) := by
  have hmk : fsOps.makedirs = fsMakedirs := rfl
  unfold create_path
  rw [hmk]
  unfold fsMakedirs
  by_cases hp : present fs p
  · rw [if_pos hp, if_pos hp]
    show (if EEXIST ≠ EEXIST then Except.error EEXIST else Except.ok fs) = Except.ok fs
    rw [if_neg (by simp)]
  · rw [if_neg hp, if_neg hp]

theorem mapError_ok {ε ε' α : Type} (f : ε → ε') (a : α) :
    Except.mapError f (.ok a : Except ε α) = .ok a := rfl

theorem mapError_error {ε ε' α : Type} (f : ε → ε') (e : ε) :
    Except.mapError f (.error e : Except ε α) = .error (f e) := rfl

theorem except_bind_ok {ε α β : Type} (a : α) (f : α → Except ε β) :
    Except.bind (.ok a : Except ε α) f = f a := rfl

theorem except_bind_error {ε α β : Type} (e : ε) (f : α → Except ε β) :
    Except.bind (.error e : Except ε α) f = .error e := rfl

theorem try_symlink_fs (pathname ppn : Chars) (fs : Fs) :
    try_symlink fsOps pathname ppn fs =
      .ok (if present fs ppn then fs else fs ++ [(ppn, Entry.link pathname)]) := by
  have he : fsOps.symlink = fsSymlink := rfl
  unfold try_symlink
  rw [he]
  unfold fsSymlink
  by_cases hp : present fs ppn
  · rw [if_pos hp, if_pos hp]
    show (if EEXIST ≠ EEXIST then Except.error EEXIST else Except.ok fs) = Except.ok fs
    rw [if_neg (by simp)]
  · rw [if_neg hp, if_neg hp]

theorem make_links_cons (ops : FsOps σ) (t p n : Chars)
    (rest : List (Chars × Chars)) (s : σ) :
    make_links ops t ((p, n) :: rest) s =
      (Except.mapError PyErr.osErr
          (create_path ops (joinPathC t (pdirD n)) s)).bind fun s1 =>
        (Except.mapError PyErr.osErr (try_symlink ops (joinPathC p n)
            (joinPathC (joinPathC t (pdirD n)) (pnameD n)) s1)).bind fun s2 =>
          make_links ops t rest s2 := by
  obtain ⟨hd, hn⟩ := show_plex_total n
  simp only [make_links, hd, hn]

theorem make_links_eq_mkRun (t : Chars) : ∀ (walk : List (Chars × Chars)) (fs : Fs),
    make_links fsOps t walk fs = .ok (mkRun t walk fs) := by
  intro walk
  induction walk with
  | nil => intro fs; rfl
  | cons pn rest ih =>
    intro fs
    obtain ⟨p, n⟩ := pn
    rw [make_links_cons, create_path_fs, mapError_ok, except_bind_ok,
      try_symlink_fs, mapError_ok, except_bind_ok, ih]
    rfl

theorem present_mkStep_mono {fs : Fs} {q : Chars} (t : Chars) (pn : Chars × Chars)
    (h : present fs q = true) : present (mkStep t fs pn) q = true := by
  simp only [mkStep]
  set fs1 := if present fs (pPath t pn.2) then fs
    else fs ++ [(pPath t pn.2, Entry.dir)] with hfs1
  have hq1 : present fs1 q = true := by
    rw [hfs1]
    split
    · exact h
    · simp [present_append_iff, h]
  split
  · exact hq1
  · simp [present_append_iff, hq1]

theorem present_mkRun_mono (t : Chars) : ∀ (walk : List (Chars × Chars)) (fs : Fs)
    (q : Chars), present fs q = true → present (mkRun t walk fs) q = true := by
  intro walk
  induction walk with
  | nil => intro fs q h; exact h
  | cons pn rest ih =>
    intro fs q h
    simp only [mkRun, List.foldl_cons]
    exact ih _ _ (present_mkStep_mono t pn h)

theorem mkStep_present (t : Chars) (fs : Fs) (pn : Chars × Chars) :
    present (mkStep t fs pn) (pPath t pn.2) = true ∧
      present (mkStep t fs pn) (pPathname t pn.2) = true := by
  simp only [mkStep]
  set fs1 := if present fs (pPath t pn.2) then fs
    else fs ++ [(pPath t pn.2, Entry.dir)] with hfs1
  have hq1 : present fs1 (pPath t pn.2) = true := by
    rw [hfs1]
    split
    case isTrue hp => exact hp
    case isFalse hp => simp [present_append_iff]
  constructor
  · split
    · exact hq1
    · simp [present_append_iff, hq1]
  · split
    case isTrue hp => exact hp
    case isFalse hp => simp [present_append_iff]

theorem mkRun_present (t : Chars) : ∀ (walk : List (Chars × Chars)) (fs : Fs)
    (pn : Chars × Chars), pn ∈ walk →
    present (mkRun t walk fs) (pPath t pn.2) = true ∧
      present (mkRun t walk fs) (pPathname t pn.2) = true := by
  intro walk
  induction walk with
  | nil => intro fs pn h; exact absurd h (List.not_mem_nil _)
  | cons q rest ih =>
    intro fs pn h
    simp only [mkRun, List.foldl_cons]
    rcases List.mem_cons.mp h with h | h
    · subst h
      exact ⟨present_mkRun_mono t rest _ _ (mkStep_present t fs pn).1,
        present_mkRun_mono t rest _ _ (mkStep_present t fs pn).2⟩
    · exact ih _ _ h

theorem mkRun_noop (t : Chars) : ∀ (walk : List (Chars × Chars)) (fs : Fs),
    (∀ pn ∈ walk, present fs (pPath t pn.2) = true ∧
      present fs (pPathname t pn.2) = true) →
    mkRun t walk fs = fs := by
  intro walk
  induction walk with
  | nil => intro fs _; rfl
  | cons q rest ih =>
    intro fs h
    simp only [mkRun, List.foldl_cons]
    have hstep : mkStep t fs q = fs := by
      simp only [mkStep]
      rw [if_pos (h q (List.mem_cons_self q rest)).1,
        if_pos (h q (List.mem_cons_self q rest)).2]
    rw [hstep]
    exact ih fs fun pn hpn => h pn (List.mem_cons_of_mem q hpn)

/-! ## Lemmas about `delete_broken_links` on the concrete model -/

theorem present_iff_mem_keys (fs : Fs) (p : Chars) :
    present fs p = true ↔ p ∈ fs.map Prod.fst := by
  simp only [present, List.any_eq_true, List.mem_map, decide_eq_true_eq]

theorem fsLookup_of_mem : ∀ (fs : Fs) (e : Chars × Entry),
    (fs.map Prod.fst).Nodup → e ∈ fs → fsLookup fs e.1 = some e.2 := by
  intro fs
  induction fs with
  | nil => intro e _ he; exact absurd he (List.not_mem_nil _)
  | cons x fs ih =>
    intro e hnd he
    rw [List.map_cons, List.nodup_cons] at hnd
    rcases List.mem_cons.mp he with he | he
    · subst he
      unfold fsLookup
      rw [List.find?_cons]
      simp
    · have hne : ¬x.1 = e.1 := by
        intro hx
        exact hnd.1 (hx ▸ List.mem_map.mpr ⟨e, he, rfl⟩)
      have hrec := ih e hnd.2 he
      unfold fsLookup at hrec ⊢
      rw [List.find?_cons, decide_eq_false hne]
      exact hrec

theorem try_stat_fs (srcs : List Chars) (q : Chars) (fs : Fs) :
    try_stat (fsStat srcs) fsRemove q fs =
      .ok (if statOkB srcs fs q then fs else fsRemove q fs) := by
  unfold try_stat fsStat statOkB
  cases hq : fsLookup fs q with
  | none => simp [ENOENT]
  | some ent =>
    cases ent with
    | dir => simp [statKeep]
    | link v =>
      by_cases hv : v ∈ srcs
      · simp [hv, statKeep]
      · simp [hv, statKeep, ENOENT]

theorem fsRemove_nodup {fs : Fs} (q : Chars) (h : (fs.map Prod.fst).Nodup) :
    ((fsRemove q fs).map Prod.fst).Nodup :=
  h.sublist (List.Sublist.map Prod.fst (List.filter_sublist fs))

theorem statOkB_some {srcs : List Chars} {fs : Fs} {e : Chars × Entry}
    (hnd : (fs.map Prod.fst).Nodup) (he : e ∈ fs) :
    statOkB srcs fs e.1 = statKeep srcs e.2 := by
  unfold statOkB
  rw [fsLookup_of_mem fs e hnd he]

theorem delete_fs_general (srcs : List Chars) :
    ∀ (W : List Chars) (fs : Fs), W.Nodup → (fs.map Prod.fst).Nodup →
    delete_broken_links (fsStat srcs) fsRemove W fs =
      .ok (fs.filter fun e => (!decide (e.1 ∈ W)) || statKeep srcs e.2) := by
  intro W
  induction W with
  | nil =>
    intro fs _ _
    simp [delete_broken_links, List.filter_eq_self]
  | cons q W' ih =>
    intro fs hW hfs
    rw [List.nodup_cons] at hW
    rw [delete_broken_links, try_stat_fs, mapError_ok, except_bind_ok]
    by_cases hq : statOkB srcs fs q = true
    · rw [if_pos hq, ih fs hW.2 hfs]
      congr 1
      apply List.filter_congr
      intro e he
      by_cases heq : e.1 = q
      · have hkeep : statKeep srcs e.2 = true := by
          rw [← statOkB_some hfs he, heq]
          exact hq
        have hmem : decide (e.1 ∈ q :: W') = true := by
          simp [heq]
        have hmem2 : decide (e.1 ∈ W') = false := by
          simp only [decide_eq_false_iff_not]
          rw [heq]
          exact hW.1
        rw [hkeep, hmem, hmem2]
        rfl
      · have : (e.1 ∈ W') ↔ (e.1 ∈ q :: W') := by
          simp [List.mem_cons, heq]
        by_cases hm : e.1 ∈ W'
        · rw [decide_eq_true hm, decide_eq_true (this.mp hm)]
        · rw [decide_eq_false hm, decide_eq_false (fun hx => hm (this.mpr hx))]
    · rw [if_neg hq, ih (fsRemove q fs) hW.2 (fsRemove_nodup q hfs)]
      unfold fsRemove
      rw [List.filter_filter]
      congr 1
      apply List.filter_congr
      intro e he
      by_cases heq : e.1 = q
      · have hkeep : statKeep srcs e.2 = false := by
          rw [← statOkB_some hfs he, heq]
          exact Bool.of_not_eq_true hq
        have hmem : decide (e.1 ∈ q :: W') = true := by
          simp [heq]
        rw [hkeep, hmem, decide_eq_true heq]
        simp
      · have hmemiff : (e.1 ∈ W') ↔ (e.1 ∈ q :: W') := by
          simp [List.mem_cons, heq]
        rw [decide_eq_false heq]
        by_cases hm : e.1 ∈ W'
        · rw [decide_eq_true hm, decide_eq_true (hmemiff.mp hm)]
          simp
        · rw [decide_eq_false hm, decide_eq_false (fun hx => hm (hmemiff.mpr hx))]
          simp

theorem walkTarget_subset_keys (fs : Fs) : ∀ q ∈ walkTarget fs, q ∈ fs.map Prod.fst := by
  intro q hq
  obtain ⟨e, he, hfe⟩ := List.mem_filterMap.mp hq
  cases hx : e.2 with
  | dir => rw [hx] at hfe; exact absurd hfe (by simp)
  | link v =>
    rw [hx] at hfe
    have : e.1 = q := by
      simpa using hfe
    exact this ▸ List.mem_map.mpr ⟨e, he, rfl⟩

theorem walkTarget_nodup : ∀ (fs : Fs), (fs.map Prod.fst).Nodup →
    (walkTarget fs).Nodup := by
  intro fs
  induction fs with
  | nil => intro _; simp [walkTarget]
  | cons x fs ih =>
    intro h
    rw [List.map_cons, List.nodup_cons] at h
    unfold walkTarget
    rw [List.filterMap_cons]
    cases hx : x.2 with
    | dir => exact ih h.2
    | link v =>
      rw [List.nodup_cons]
      exact ⟨fun hc => h.1 (walkTarget_subset_keys fs x.1 hc), ih h.2⟩

theorem mem_walkTarget_of_link {fs : Fs} {q v : Chars}
    (h : (q, Entry.link v) ∈ fs) : q ∈ walkTarget fs :=
  List.mem_filterMap.mpr ⟨(q, Entry.link v), h, rfl⟩

theorem runDelete_eq (srcs : List Chars) (fs : Fs)
    (h : (fs.map Prod.fst).Nodup) :
    runDelete srcs fs = .ok (fs.filter fun e => statKeep srcs e.2) := by
  unfold runDelete
  rw [delete_fs_general srcs (walkTarget fs) fs (walkTarget_nodup fs h) h]
  congr 1
  apply List.filter_congr
  intro e he
  cases hx : e.2 with
  | dir => simp [statKeep]
  | link v =>
    have hq : e.1 ∈ walkTarget fs := by
      apply mem_walkTarget_of_link
      rw [← hx]
      exact he
    simp [hq]

theorem mem_if_append {g : Fs} {y x : Chars × Entry} {c : Prop} [Decidable c]
    (h : x ∈ (if c then g else g ++ [y])) : x ∈ g ∨ x = y := by
  split at h
  · exact Or.inl h
  · rcases List.mem_append.mp h with h | h
    · exact Or.inl h
    · exact Or.inr (List.mem_singleton.mp h)

theorem mkStep_entries (t : Chars) (fs : Fs) (pn : Chars × Chars)
    (e : Chars × Entry) (h : e ∈ mkStep t fs pn) :
    e ∈ fs ∨ e.2 = Entry.dir ∨ e.2 = Entry.link (joinPathC pn.1 pn.2) := by
  simp only [mkStep] at h
  rcases mem_if_append h with h | h
  · rcases mem_if_append h with h | h
    · exact Or.inl h
    · rw [h]
      exact Or.inr (Or.inl rfl)
  · rw [h]
    exact Or.inr (Or.inr rfl)

theorem mkRun_entries (t : Chars) : ∀ (walk : List (Chars × Chars)) (fs : Fs)
    (e : Chars × Entry), e ∈ mkRun t walk fs →
    e ∈ fs ∨ e.2 = Entry.dir ∨
      ∃ pn ∈ walk, e.2 = Entry.link (joinPathC pn.1 pn.2) := by
  intro walk
  induction walk with
  | nil => intro fs e h; exact Or.inl h
  | cons q rest ih =>
    intro fs e h
    simp only [mkRun, List.foldl_cons] at h
    rcases ih _ e h with h | h | ⟨pn, hpn, hl⟩
    · rcases mkStep_entries t fs q e h with h | h | h
      · exact Or.inl h
      · exact Or.inr (Or.inl h)
      · exact Or.inr (Or.inr ⟨q, List.mem_cons_self q rest, h⟩)
    · exact Or.inr (Or.inl h)
    · exact Or.inr (Or.inr ⟨pn, List.mem_cons_of_mem q hpn, hl⟩)

theorem append_keys_nodup {fs : Fs} {x : Chars × Entry}
    (h : (fs.map Prod.fst).Nodup) (hp : present fs x.1 = false) :
    ((fs ++ [x]).map Prod.fst).Nodup := by
  rw [List.map_append, List.nodup_append]
  refine ⟨h, List.nodup_singleton _, ?_⟩
  intro a ha hb
  have hax : a = x.1 := by
    simpa using hb
  subst hax
  rw [← present_iff_mem_keys] at ha
  rw [ha] at hp
  exact Bool.noConfusion hp

theorem mkStep_nodup (t : Chars) (fs : Fs) (pn : Chars × Chars)
    (h : (fs.map Prod.fst).Nodup) : ((mkStep t fs pn).map Prod.fst).Nodup := by
  simp only [mkStep]
  split
  case isTrue h2 =>
    split
    case isTrue h1 => exact h
    case isFalse h1 => exact append_keys_nodup h (Bool.of_not_eq_true h1)
  case isFalse h2 =>
    split
    case isTrue h1 =>
      exact append_keys_nodup h (Bool.of_not_eq_true h2)
    case isFalse h1 =>
      refine append_keys_nodup ?_ (Bool.of_not_eq_true h1)
      exact append_keys_nodup h (Bool.of_not_eq_true h2)

theorem mkRun_nodup (t : Chars) : ∀ (walk : List (Chars × Chars)) (fs : Fs),
    (fs.map Prod.fst).Nodup → ((mkRun t walk fs).map Prod.fst).Nodup := by
  intro walk
  induction walk with
  | nil => intro fs h; exact h
  | cons q rest ih =>
    intro fs h
    simp only [mkRun, List.foldl_cons]
    exact ih _ (mkStep_nodup t fs q h)

/-! ## Helper lemmas for `put_whitespace` -/

theorem put_whitespace_eq_map (l : Chars) :
    put_whitespace l = l.map fun c => if c = '.' ∨ c = '-' ∨ c = '_' then ' ' else c := by
  unfold put_whitespace replace1
  rw [List.map_map, List.map_map]
  congr 1
  funext c
  by_cases h1 : c = '.'
  · subst h1
    rfl
  · by_cases h2 : c = '-'
    · subst h2
      rfl
    · by_cases h3 : c = '_'
      · subst h3
        rfl
      · simp [Function.comp, h1, h2, h3]

theorem put_whitespace_append (a b : Chars) :
    put_whitespace (a ++ b) = put_whitespace a ++ put_whitespace b := by
  rw [put_whitespace_eq_map, put_whitespace_eq_map, put_whitespace_eq_map,
    List.map_append]

theorem put_whitespace_sep (m : Chars)
    (h : ∀ c ∈ m, c = '.' ∨ c = '-' ∨ c = '_') :
    put_whitespace m = List.replicate m.length ' ' := by
  induction m with
  | nil => rfl
  | cons c m ih =>
    rw [put_whitespace_eq_map, List.map_cons, ← put_whitespace_eq_map,
      ih fun x hx => h x (List.mem_cons_of_mem c hx), List.length_cons,
      List.replicate_succ]
    congr 1
    exact if_pos (h c (List.mem_cons_self c m))

/-! ## The claims -/

/-- Claim C10: `put_whitespace` replaces every `'.'`, `'-'` and `'_'` with a
single space, leaves every other character unchanged, preserves the length
of its input, and turns a run of consecutive separator characters into a run
of the same number of spaces (runs are not collapsed). -/
theorem put_whitespace_spec :
    (∀ l : Chars, put_whitespace l =
      l.map fun c => if c = '.' ∨ c = '-' ∨ c = '_' then ' ' else c) ∧
    (∀ l : Chars, (put_whitespace l).length = l.length) ∧
    (∀ (a m b : Chars), (∀ c ∈ m, c = '.' ∨ c = '-' ∨ c = '_') →
      put_whitespace (a ++ (m ++ b)) =
        put_whitespace a ++ (List.replicate m.length ' ' ++ put_whitespace b)) := by
  refine ⟨put_whitespace_eq_map, ?_, ?_⟩
  · intro l
    rw [put_whitespace_eq_map, List.length_map]
  · intro a m b h
    rw [put_whitespace_append, put_whitespace_append, put_whitespace_sep m h]

/-- Witness for C10 at a concrete input with a three-separator run. -/
theorem put_whitespace_spec_witness :
    put_whitespace ((("ab").data) ++ (((".-_").data) ++ (("c").data))) =
      put_whitespace (("ab").data) ++
        (List.replicate ((".-_").data).length ' ' ++ put_whitespace (("c").data)) :=
  put_whitespace_spec.2.2 (("ab").data) ((".-_").data) (("c").data) (by decide)

/-- Claim C1: classification is total — `TvFormat.get` always returns some
format because the catch-all `Other` (pattern `.*`) matches every string;
and whenever none of the four real patterns matches, the result is `Other`,
whose target subdirectory is exactly `"Uncategorized"` and whose target
filename is the input filename unchanged. -/
theorem classification_total (l : Chars) :
    (∃ f, TvFormat.get l = some f) ∧ TvFormat.matches .Other l = true ∧
      (TvFormat.matches .Weekly l = false → TvFormat.matches .Mini l = false →
        TvFormat.matches .Daily l = false → TvFormat.matches .Single l = false →
          TvFormat.get l = some .Other ∧
            Show.plex_dir l = some (("Uncategorized").data) ∧
            Show.plex_name l = some l) := by
  obtain ⟨f, hf, _⟩ := get_total l
  refine ⟨⟨f, hf⟩, matches_Other l, ?_⟩
  intro hW hM hD hS
  have hget : TvFormat.get l = some .Other := by
    rw [get_eq_ite]
    simp [hW, hM, hD, hS]
  refine ⟨hget, ?_, ?_⟩
  · unfold Show.plex_dir
    rw [hget, Option.some_bind]
    rfl
  · unfold Show.plex_name
    rw [hget, Option.some_bind]
    rfl

/-- Witness for C1: `"randomfile.txt"` matches none of the four real
patterns and lands in `Uncategorized` unchanged. -/
theorem classification_total_witness :
    TvFormat.get (("randomfile.txt").data) = some TvFormat.Other ∧
      Show.plex_dir (("randomfile.txt").data) = some (("Uncategorized").data) ∧
      Show.plex_name (("randomfile.txt").data) = some (("randomfile.txt").data) :=
  (classification_total (("randomfile.txt").data)).2.2
    (by decide) (by decide) (by decide) (by decide)

/-- Counterexample to claim C2 as stated: the filename
`"A.S1E2.2020.03.15.mkv"` has the form `NAME.YYYY.MM.DD.EXT` (with
`NAME = "A.S1E2"`, `YYYY.MM.DD = 2020.03.15`, `EXT = "mkv"`), yet it is
classified as `Weekly`, not as `Daily`, because `Weekly`'s pattern is tried
first and also matches.  So "every filename of the form `NAME.YYYY.MM.DD.EXT`
is classified as Daily" is false. -/
theorem daily_priority_cex :
    TvFormat.get (("A.S1E2.2020.03.15.mkv").data) = some TvFormat.Weekly ∧
      TvFormat.get (("A.S1E2.2020.03.15.mkv").data) ≠ some TvFormat.Daily := by
  decide

/-- Claim C2 (amended): the classifier tries the five variants in the fixed
order Weekly, Mini, Daily, Single, Fallback, selecting the first match
(first conjunct); and because Daily is tried before Single, a filename of
the form `NAME.YYYY.MM.DD.EXT` (MM, DD exactly two digits) is never
classified as Single, and it is classified as Daily whenever neither
Weekly's nor Mini's pattern also matches it. -/
theorem daily_priority (l : Chars) :
    (TvFormat.get l =
      (if TvFormat.matches .Weekly l then some .Weekly
       else if TvFormat.matches .Mini l then some .Mini
       else if TvFormat.matches .Daily l then some .Daily
       else if TvFormat.matches .Single l then some .Single
       else some .Other)) ∧
    (∀ (name ext : Chars) (y1 y2 y3 y4 m1 m2 d1 d2 : Char),
      l = name ++ '.' :: y1 :: y2 :: y3 :: y4 :: '.' :: m1 :: m2 :: '.' ::
        d1 :: d2 :: '.' :: ext →
      name ≠ [] → (∀ ch ∈ name, dot ch = true) →
      y1.isDigit = true → y2.isDigit = true → y3.isDigit = true →
      y4.isDigit = true → m1.isDigit = true → m2.isDigit = true →
      d1.isDigit = true → d2.isDigit = true → dotPlusEnd ext = true →
      TvFormat.get l ≠ some .Single ∧
        (TvFormat.matches .Weekly l = false → TvFormat.matches .Mini l = false →
          TvFormat.get l = some .Daily)) := by
  refine ⟨get_eq_ite l, ?_⟩
  intro name ext y1 y2 y3 y4 m1 m2 d1 d2 hl h1 h2 hy1 hy2 hy3 hy4 hm1 hm2 hd1 hd2 hext
  have hmem := dailyCands_complete h1 h2 ⟨hy1, hy2, hy3, hy4⟩ ⟨hm1, hm2⟩
    ⟨hd1, hd2⟩ hext
  have hD : TvFormat.matches .Daily l = true := by
    apply (matches_daily_iff l).mpr
    rw [hl]
    exact List.ne_nil_of_mem hmem
  constructor
  · rw [get_eq_ite]
    by_cases hW : TvFormat.matches .Weekly l
    · simp [hW]
    · by_cases hM : TvFormat.matches .Mini l
      · simp [hW, hM]
      · simp [hW, hM, hD]
  · intro hW hM
    rw [get_eq_ite]
    simp [hW, hM, hD]

/-- Witness for C2 at the spec's own example `"Daily.Show.2020.03.15.mkv"`. -/
theorem daily_priority_witness :
    TvFormat.get (("Daily.Show.2020.03.15.mkv").data) ≠ some TvFormat.Single ∧
      TvFormat.get (("Daily.Show.2020.03.15.mkv").data) = some TvFormat.Daily := by
  have h := (daily_priority (("Daily.Show.2020.03.15.mkv").data)).2
    (("Daily.Show").data) (("mkv").data) '2' '0' '2' '0' '0' '3' '1' '5'
    (by decide) (by decide) (by decide) (by decide) (by decide) (by decide)
    (by decide) (by decide) (by decide) (by decide) (by decide) (by decide)
  exact ⟨h.1, h.2 (by decide) (by decide)⟩

/-- Claim C3: a filename of the form `NAME.S<digits>E<non-dot-run>.EXT`
(`S`/`E` case-insensitive) is classified as Weekly; its target subdirectory
is the name-normalized captured name joined with `"Season <digits>"`, and
its target filename is `"<normalized name> - s<season>e<episode> -
<original filename>"`, where (name, season, episode) are the captures of
the match, themselves a decomposition of that form; and on the concrete
input `"Show.Name.S02E05.Description.mkv"` the subdirectory is
`"Show Name/Season 02"` and the filename
`"Show Name - s02e05 - Show.Name.S02E05.Description.mkv"`. -/
theorem weekly_classification :
    (∀ (name se ep ext : Chars) (c c2 : Char),
      name ≠ [] → (∀ ch ∈ name, dot ch = true) → (c = 'S' ∨ c = 's') →
      se ≠ [] → (∀ ch ∈ se, ch.isDigit = true) → (c2 = 'E' ∨ c2 = 'e') →
      ep ≠ [] → (∀ ch ∈ ep, nonDot ch = true) → dotPlusEnd ext = true →
      TvFormat.get (name ++ '.' :: c :: (se ++ c2 :: (ep ++ '.' :: ext))) =
          some .Weekly ∧
        ∃ n2 s2 e2 : Chars, ∃ c3 c4 : Char, ∃ r2 : Chars,
          (c3 = 'S' ∨ c3 = 's') ∧ (c4 = 'E' ∨ c4 = 'e') ∧
          name ++ '.' :: c :: (se ++ c2 :: (ep ++ '.' :: ext)) =
            n2 ++ '.' :: c3 :: (s2 ++ c4 :: (e2 ++ '.' :: r2)) ∧
          Show.plex_dir (name ++ '.' :: c :: (se ++ c2 :: (ep ++ '.' :: ext))) =
            some (joinPathC (put_whitespace n2) ((("Season ").data) ++ s2)) ∧
          Show.plex_name (name ++ '.' :: c :: (se ++ c2 :: (ep ++ '.' :: ext))) =
            some (put_whitespace n2 ++ ((" - s").data) ++ s2 ++ (("e").data) ++
              e2 ++ ((" - ").data) ++
              (name ++ '.' :: c :: (se ++ c2 :: (ep ++ '.' :: ext))))) ∧
    (Show.plex_dir (("Show.Name.S02E05.Description.mkv").data) =
        some (("Show Name/Season 02").data) ∧
      Show.plex_name (("Show.Name.S02E05.Description.mkv").data) =
        some (("Show Name - s02e05 - Show.Name.S02E05.Description.mkv").data)) := by
  constructor
  · intro name se ep ext c c2 h1 h2 hc h3 h4 hc2 h5 h6 h7
    have hmem := weeklyCands_complete h1 h2 hc h3 h4 hc2 h5 h6 h7
    have hne : weeklyCands (name ++ '.' :: c :: (se ++ c2 :: (ep ++ '.' :: ext))) ≠ [] :=
      List.ne_nil_of_mem hmem
    have hW : TvFormat.matches .Weekly
        (name ++ '.' :: c :: (se ++ c2 :: (ep ++ '.' :: ext))) = true :=
      (matches_weekly_iff _).mpr hne
    have hget : TvFormat.get (name ++ '.' :: c :: (se ++ c2 :: (ep ++ '.' :: ext))) =
        some .Weekly := by
      rw [get_eq_ite]
      simp [hW]
    refine ⟨hget, ?_⟩
    have hx : ∃ x, (weeklyCands
        (name ++ '.' :: c :: (se ++ c2 :: (ep ++ '.' :: ext)))).head? = some x := by
      cases hh : (weeklyCands (name ++ '.' :: c :: (se ++ c2 :: (ep ++ '.' :: ext)))).head? with
      | none => exact absurd (List.head?_eq_none_iff.mp hh) hne
      | some x => exact ⟨x, rfl⟩
    obtain ⟨x, hx⟩ := hx
    have hsound := weeklyCands_sound (List.mem_of_mem_head? hx)
    obtain ⟨c3, c4, r2, hc3, hc4, hdecomp, _, _, _, _, _, _, _⟩ := hsound
    refine ⟨x.1, x.2.1, x.2.2, c3, c4, r2, hc3, hc4, hdecomp, ?_, ?_⟩
    · unfold Show.plex_dir
      rw [hget, Option.some_bind]
      show Weekly.plex_dir _ = _
      unfold Weekly.plex_dir
      rw [hx]
      rfl
    · unfold Show.plex_name
      rw [hget, Option.some_bind]
      show Weekly.plex_name _ = _
      unfold Weekly.plex_name
      rw [hx]
      rfl
  · exact ⟨by decide, by decide⟩

/-- Witness for C3 at the decomposition of the spec's example
`"Show.Name.S02E05.Description.mkv"`. -/
theorem weekly_classification_witness :
    TvFormat.get ((("Show.Name").data) ++ '.' :: 'S' :: ((("02").data) ++ 'E' ::
        ((("05").data) ++ '.' :: (("Description.mkv").data)))) = some TvFormat.Weekly ∧
      ∃ n2 s2 e2 : Chars, ∃ c3 c4 : Char, ∃ r2 : Chars,
        (c3 = 'S' ∨ c3 = 's') ∧ (c4 = 'E' ∨ c4 = 'e') ∧
        (("Show.Name").data) ++ '.' :: 'S' :: ((("02").data) ++ 'E' ::
          ((("05").data) ++ '.' :: (("Description.mkv").data))) =
          n2 ++ '.' :: c3 :: (s2 ++ c4 :: (e2 ++ '.' :: r2)) ∧
        Show.plex_dir ((("Show.Name").data) ++ '.' :: 'S' :: ((("02").data) ++ 'E' ::
            ((("05").data) ++ '.' :: (("Description.mkv").data)))) =
          some (joinPathC (put_whitespace n2) ((("Season ").data) ++ s2)) ∧
        Show.plex_name ((("Show.Name").data) ++ '.' :: 'S' :: ((("02").data) ++ 'E' ::
            ((("05").data) ++ '.' :: (("Description.mkv").data)))) =
          some (put_whitespace n2 ++ ((" - s").data) ++ s2 ++ (("e").data) ++
            e2 ++ ((" - ").data) ++
            ((("Show.Name").data) ++ '.' :: 'S' :: ((("02").data) ++ 'E' ::
              ((("05").data) ++ '.' :: (("Description.mkv").data))))) :=
  weekly_classification.1 (("Show.Name").data) (("02").data) (("05").data)
    (("Description.mkv").data) 'S' 'E' (by decide) (by decide) (by decide)
    (by decide) (by decide) (by decide) (by decide) (by decide) (by decide)

/-- Counterexample to claim C7 as stated: `"A.S1E2.2020.mkv"` has the form
`NAME.YYYY.EXT` with a bare 4-digit year and no `.MM.DD` suffix
(`NAME = "A.S1E2"`, `YYYY = 2020`, `EXT = "mkv"`), yet it is classified as
Weekly, not Single, because Weekly's pattern is tried first and also
matches it. -/
theorem single_classification_cex :
    TvFormat.get (("A.S1E2.2020.mkv").data) = some TvFormat.Weekly ∧
      TvFormat.get (("A.S1E2.2020.mkv").data) ≠ some TvFormat.Single := by
  decide

/-- Claim C7 (amended): a filename of the form `NAME.YYYY.EXT` (bare 4-digit
year) that does not match the Daily pattern (no `.MM.DD` reading) and also
matches neither Weekly's nor Mini's pattern is classified as Single. -/
theorem single_classification (name ext : Chars) (y1 y2 y3 y4 : Char)
    (h1 : name ≠ []) (h2 : ∀ ch ∈ name, dot ch = true)
    (hy1 : y1.isDigit = true) (hy2 : y2.isDigit = true)
    (hy3 : y3.isDigit = true) (hy4 : y4.isDigit = true)
    (hext : dotPlusEnd ext = true)
    (hW : TvFormat.matches .Weekly
      (name ++ '.' :: y1 :: y2 :: y3 :: y4 :: '.' :: ext) = false)
    (hM : TvFormat.matches .Mini
      (name ++ '.' :: y1 :: y2 :: y3 :: y4 :: '.' :: ext) = false)
    (hD : TvFormat.matches .Daily
      (name ++ '.' :: y1 :: y2 :: y3 :: y4 :: '.' :: ext) = false) :
    TvFormat.get (name ++ '.' :: y1 :: y2 :: y3 :: y4 :: '.' :: ext) =
      some .Single := by
  have hmem := singleCands_complete h1 h2 ⟨hy1, hy2, hy3, hy4⟩ hext
  have hS : TvFormat.matches .Single
      (name ++ '.' :: y1 :: y2 :: y3 :: y4 :: '.' :: ext) = true :=
    (matches_single_iff _).mpr (List.ne_nil_of_mem hmem)
  rw [get_eq_ite]
  simp [hW, hM, hD, hS]

/-- Witness for C7 at `"randomshow.2019.mkv"`. -/
theorem single_classification_witness :
    TvFormat.get ((("randomshow").data) ++ '.' :: '2' :: '0' :: '1' :: '9' ::
      '.' :: (("mkv").data)) = some TvFormat.Single :=
  single_classification (("randomshow").data) (("mkv").data) '2' '0' '1' '9'
    (by decide) (by decide) (by decide) (by decide) (by decide) (by decide)
    (by decide) (by decide) (by decide) (by decide)

/-- Claim C8: for every filename the matched variant's metadata dictionary
is present (the variant's pattern matches, so `metadata` is not `None`) and
binds exactly the variant's declared capture fields, in order; the
dictionary is nonempty exactly when the matched variant is not the
catch-all `Other`, which always matches while producing no fields. -/
theorem metadata_fields (l : Chars) :
    ∃ f d, TvFormat.get l = some f ∧ TvFormat.metadata f l = some d ∧
      d.map Prod.fst = TvFormat.groups f ∧ (d = [] ↔ f = TvFormat.Other) ∧
      TvFormat.matches .Other l = true := by
  obtain ⟨f, hf, hm⟩ := get_total l
  refine ⟨f, ?_⟩
  cases f with
  | Weekly =>
    rw [TvFormat.matches] at hm
    have hx : ∃ x, (weeklyCands l).head? = some x := by
      rw [TvFormat.caps, isSome_omap] at hm
      exact Option.isSome_iff_exists.mp hm
    obtain ⟨x, hx⟩ := hx
    refine ⟨[(("name"), x.1), (("season"), x.2.1), (("episode"), x.2.2)],
      hf, ?_, rfl, by simp, matches_Other l⟩
    rw [TvFormat.metadata, TvFormat.caps, hx]
    rfl
  | Mini =>
    rw [TvFormat.matches] at hm
    have hx : ∃ x, (miniCands l).head? = some x := by
      rw [TvFormat.caps, isSome_omap] at hm
      exact Option.isSome_iff_exists.mp hm
    obtain ⟨x, hx⟩ := hx
    refine ⟨[(("name"), x.1), (("part"), x.2)],
      hf, ?_, rfl, by simp, matches_Other l⟩
    rw [TvFormat.metadata, TvFormat.caps, hx]
    rfl
  | Daily =>
    rw [TvFormat.matches] at hm
    have hx : ∃ x, (dailyCands l).head? = some x := by
      rw [TvFormat.caps, isSome_omap] at hm
      exact Option.isSome_iff_exists.mp hm
    obtain ⟨x, hx⟩ := hx
    refine ⟨[(("name"), x.1), (("year"), x.2.1), (("month"), x.2.2.1),
      (("day"), x.2.2.2)], hf, ?_, rfl, by simp, matches_Other l⟩
    rw [TvFormat.metadata, TvFormat.caps, hx]
    rfl
  | Single =>
    rw [TvFormat.matches] at hm
    have hx : ∃ x, (singleCands l).head? = some x := by
      rw [TvFormat.caps, isSome_omap] at hm
      exact Option.isSome_iff_exists.mp hm
    obtain ⟨x, hx⟩ := hx
    refine ⟨[(("name"), x.1), (("year"), x.2)],
      hf, ?_, rfl, by simp, matches_Other l⟩
    rw [TvFormat.metadata, TvFormat.caps, hx]
    rfl
  | Other =>
    exact ⟨[], hf, rfl, rfl, by simp, matches_Other l⟩

/-- Claim C4: `make_links` is idempotent on the concrete filesystem model —
if a run against an unchanged source walk succeeded with resulting target
state `fs2`, a second run from `fs2` succeeds, changes nothing, and raises
no error: every already-existing directory and link path fails creation
with `EEXIST`, which is silently skipped, leaving the entry untouched. -/
theorem make_links_idempotent (t : Chars) (walk : List (Chars × Chars))
    (fs fs2 : Fs) (h : make_links fsOps t walk fs = .ok fs2) :
    make_links fsOps t walk fs2 = .ok fs2 := by
  have h1 := make_links_eq_mkRun t walk fs
  rw [h] at h1
  have hfs2 : fs2 = mkRun t walk fs := Except.ok.inj h1
  have hnoop : mkRun t walk fs2 = fs2 := by
    apply mkRun_noop
    intro pn hpn
    rw [hfs2]
    exact mkRun_present t walk fs pn hpn
  rw [make_links_eq_mkRun, hnoop]

/-- Witness for C4: a concrete first run produces a directory and a link,
and the second run returns the same state unchanged. -/
theorem make_links_idempotent_witness :
    make_links fsOps (("t").data) [((("a").data), (("n.mkv").data))]
      [((("t/Uncategorized").data), Entry.dir),
        ((("t/Uncategorized/n.mkv").data), Entry.link (("a/n.mkv").data))] =
      .ok [((("t/Uncategorized").data), Entry.dir),
        ((("t/Uncategorized/n.mkv").data), Entry.link (("a/n.mkv").data))] :=
  make_links_idempotent (("t").data) [((("a").data), (("n.mkv").data))] []
    [((("t/Uncategorized").data), Entry.dir),
      ((("t/Uncategorized/n.mkv").data), Entry.link (("a/n.mkv").data))]
    (by decide)

/-- Claim C6: fail-fast error propagation — an `OSError` from `os.symlink`
whose errno is not `EEXIST` aborts `make_links`, an `OSError` from
`os.makedirs` whose errno is not `EEXIST` aborts `make_links` through
`create_path`, and an `OSError` from `os.stat` whose errno is not `ENOENT`
aborts `delete_broken_links`; in each case the error is re-raised
immediately (no retry, remaining entries unprocessed). -/
theorem error_propagation (σ : Type) (e : Nat) (s : σ) (t p n q : Chars)
    (rest : List (Chars × Chars)) (W : List Chars) :
    (e ≠ EEXIST →
      make_links ⟨fun _ s2 => .ok s2, fun _ _ _ => .error e⟩ t ((p, n) :: rest) s =
        .error (.osErr e)) ∧
    (e ≠ EEXIST →
      make_links ⟨fun _ _ => .error e, fun _ _ s2 => .ok s2⟩ t ((p, n) :: rest) s =
        .error (.osErr e)) ∧
    (e ≠ ENOENT →
      delete_broken_links (fun _ _ => .error e) (fun _ s2 => s2) (q :: W) s =
        .error (.osErr e)) := by
  refine ⟨fun hEE => ?_, fun hEE => ?_, fun hEN => ?_⟩
  · rw [make_links_cons]
    have hcp : create_path ⟨fun _ s2 => .ok s2, fun _ _ _ => .error e⟩
        (joinPathC t (pdirD n)) s = .ok s := rfl
    rw [hcp, mapError_ok, except_bind_ok]
    have hts : try_symlink ⟨fun _ s2 => .ok s2, fun _ _ _ => .error e⟩
        (joinPathC p n) (joinPathC (joinPathC t (pdirD n)) (pnameD n)) s =
        .error e := by
      unfold try_symlink
      show (if e ≠ EEXIST then Except.error e else Except.ok s) = _
      rw [if_pos hEE]
    rw [hts, mapError_error, except_bind_error]
  · rw [make_links_cons]
    have hcp : create_path ⟨fun _ _ => .error e, fun _ _ s2 => .ok s2⟩
        (joinPathC t (pdirD n)) s = .error e := by
      unfold create_path
      show (if e ≠ EEXIST then Except.error e else Except.ok s) = _
      rw [if_pos hEE]
    rw [hcp, mapError_error, except_bind_error]
  · rw [delete_broken_links]
    have hts : try_stat (fun _ _ => .error e) (fun _ s2 => s2) q s = .error e := by
      unfold try_stat
      show (if e ≠ ENOENT then Except.error e else Except.ok s) = _
      rw [if_pos hEN]
    rw [hts, mapError_error, except_bind_error]

/-- Witness for C6 at errno 2 (`ENOENT`) for the two creation failures —
which the symlink/makedirs handlers re-raise, since they tolerate only
`EEXIST` — and at errno 17 (`EEXIST`) for the stat failure, which the stat
handler re-raises since it tolerates only `ENOENT`. -/
theorem error_propagation_witness :
    make_links ⟨fun _ s2 => .ok s2, fun _ _ _ => .error 2⟩ (("t").data)
        [((("a").data), (("x").data))] ([] : Fs) = .error (.osErr 2) ∧
    make_links ⟨fun _ _ => .error 2, fun _ _ s2 => .ok s2⟩ (("t").data)
        [((("a").data), (("x").data))] ([] : Fs) = .error (.osErr 2) ∧
    delete_broken_links (fun _ _ => .error 17) (fun _ s2 => s2) [(("q").data)]
      ([] : Fs) = .error (.osErr 17) :=
  ⟨(error_propagation Fs 2 [] (("t").data) (("a").data) (("x").data)
      (("q").data) [] []).1 (by decide),
    (error_propagation Fs 2 [] (("t").data) (("a").data) (("x").data)
      (("q").data) [] []).2.1 (by decide),
    (error_propagation Fs 17 [] (("t").data) (("a").data) (("x").data)
      (("q").data) [] []).2.2 (by decide)⟩

/-- Each step of `delete_broken_links` on the concrete model succeeds (its
stat either succeeds or fails with `ENOENT`), so the whole run returns
`ok`. -/
theorem delete_fs_total (srcs : List Chars) :
    ∀ (W : List Chars) (fs : Fs), ∃ fs2,
      delete_broken_links (fsStat srcs) fsRemove W fs = .ok fs2 := by
  intro W
  induction W with
  | nil => intro fs; exact ⟨fs, rfl⟩
  | cons q W2 ih =>
    intro fs
    rw [delete_broken_links, try_stat_fs, mapError_ok, except_bind_ok]
    exact ih _

/-- Counterexample to claim C5 as stated: the source files `a/n` and `b/n`
collide on the same classified target path `t/Uncategorized/n`, so
`make_links` creates a single link (pointing at `a/n`, the first file
walked).  After deleting the source file `b/n` (remaining sources
`[a/n]`), `delete_broken_links` removes nothing — the run returns the
target tree unchanged, and the link at `b/n`'s classified target path is
still present — so it does not remove "precisely the one corresponding
link" of the deleted source file. -/
theorem delete_broken_cex :
    make_links fsOps (("t").data)
        [((("a").data), (("n").data)), ((("b").data), (("n").data))] [] =
      .ok [((("t/Uncategorized").data), Entry.dir),
        ((("t/Uncategorized/n").data), Entry.link (("a/n").data))] ∧
    joinPathC (joinPathC (("t").data) (("Uncategorized").data)) (("n").data) =
      (("t/Uncategorized/n").data) ∧
    runDelete [(("a/n").data)]
        [((("t/Uncategorized").data), Entry.dir),
          ((("t/Uncategorized/n").data), Entry.link (("a/n").data))] =
      .ok [((("t/Uncategorized").data), Entry.dir),
        ((("t/Uncategorized/n").data), Entry.link (("a/n").data))] :=
  ⟨by decide, by decide, by decide⟩

/-- Claim C5 (amended): `delete_broken_links` removes exactly the entries
whose stat fails with `ENOENT` and keeps every entry whose stat succeeds
(first conjunct, for any target tree with distinct paths); consequently,
after a `make_links` run into an empty target tree, deleting one source
file and re-running `delete_broken_links` removes precisely the links whose
value is the deleted source pathname and no others (second conjunct). -/
theorem delete_broken_exact :
    (∀ (srcs : List Chars) (fs : Fs), (fs.map Prod.fst).Nodup →
      runDelete srcs fs = .ok (fs.filter fun e => statKeep srcs e.2)) ∧
    (∀ (t : Chars) (walk : List (Chars × Chars)) (fs2 : Fs) (f : Chars),
      make_links fsOps t walk [] = .ok fs2 →
      runDelete ((walk.map fun pn => joinPathC pn.1 pn.2).filter
          fun q => !decide (q = f)) fs2 =
        .ok (fs2.filter fun e => !decide (e.2 = Entry.link f))) := by
  refine ⟨fun srcs fs h => runDelete_eq srcs fs h, ?_⟩
  intro t walk fs2 f h
  have h1 := make_links_eq_mkRun t walk []
  rw [h] at h1
  have hfs2 : fs2 = mkRun t walk [] := Except.ok.inj h1
  have hnd : (fs2.map Prod.fst).Nodup := by
    rw [hfs2]
    exact mkRun_nodup t walk [] (by simp)
  rw [runDelete_eq _ _ hnd]
  congr 1
  apply List.filter_congr
  intro e he
  cases hx : e.2 with
  | dir => simp [statKeep]
  | link v =>
    have hvmem : v ∈ walk.map fun pn => joinPathC pn.1 pn.2 := by
      rcases mkRun_entries t walk [] e (hfs2 ▸ he) with hm | hm | ⟨pn, hpn, hl⟩
      · exact absurd hm (List.not_mem_nil _)
      · rw [hx] at hm
        exact absurd hm (by simp)
      · rw [hx] at hl
        have hv : v = joinPathC pn.1 pn.2 := Entry.link.inj hl
        exact hv ▸ List.mem_map.mpr ⟨pn, hpn, rfl⟩
    by_cases hvf : v = f
    · subst hvf
      have hnotin : v ∉ (walk.map fun pn => joinPathC pn.1 pn.2).filter
          fun q => !decide (q = v) := by
        intro hc
        have := (List.mem_filter.mp hc).2
        simp at this
      simp [statKeep, hnotin]
    · have hin : v ∈ (walk.map fun pn => joinPathC pn.1 pn.2).filter
          fun q => !decide (q = f) :=
        List.mem_filter.mpr ⟨hvmem, by simp [hvf]⟩
      simp [statKeep, hin, hvf]

/-- Witness for C5: two source files `a/x`, `a/y` produce two links;
deleting `a/x` and re-running removes exactly the link whose value is
`a/x`. -/
theorem delete_broken_exact_witness :
    runDelete (([((("a").data), (("x").data)), ((("a").data), (("y").data))].map
        fun pn => joinPathC pn.1 pn.2).filter fun q => !decide (q = (("a/x").data)))
      [((("t/Uncategorized").data), Entry.dir),
        ((("t/Uncategorized/x").data), Entry.link (("a/x").data)),
        ((("t/Uncategorized/y").data), Entry.link (("a/y").data))] =
      .ok ([((("t/Uncategorized").data), Entry.dir),
        ((("t/Uncategorized/x").data), Entry.link (("a/x").data)),
        ((("t/Uncategorized/y").data), Entry.link (("a/y").data))].filter
          fun e => !decide (e.2 = Entry.link (("a/x").data))) :=
  delete_broken_exact.2 (("t").data)
    [((("a").data), (("x").data)), ((("a").data), (("y").data))]
    [((("t/Uncategorized").data), Entry.dir),
      ((("t/Uncategorized/x").data), Entry.link (("a/x").data)),
      ((("t/Uncategorized/y").data), Entry.link (("a/y").data))]
    (("a/x").data) (by decide)

/-- Counterexample to claim C9 as stated: with a missing source path,
`main` reports the error by returning `1`, but the `__main__` guard
discards that return value, so a direct `python app.py` run exits with
status `0`, not non-zero. -/
theorem main_exit_cex :
    App.main false true (("d").data) [] [] = .ok (some 1, []) ∧
      run_as_script_exit (some 1) = 0 :=
  ⟨rfl, rfl⟩

/-- Claim C9 (amended): when the source or the destination path is missing,
`main` reports the error and returns `1` before any filesystem mutation
(the state is returned unchanged); the packaged console script passes that
value to `sys.exit` and exits `1`, while the `__main__` guard discards it
and the process exits `0`.  When both paths exist, `main` runs `make_links`
and then `delete_broken_links` on its result, in that order, returns
`None`, and the process exits `0` either way. -/
theorem main_behavior (d : Bool) (dest : Chars) (walk : List (Chars × Chars))
    (fs : Fs) :
    App.main false d dest walk fs = .ok (some 1, fs) ∧
    App.main true false dest walk fs = .ok (some 1, fs) ∧
    (∃ fs1 fs2, make_links fsOps dest walk fs = .ok fs1 ∧
      delete_broken_links (fsStat (walk.map fun pn => joinPathC pn.1 pn.2))
        fsRemove (walkTarget fs1) fs1 = .ok fs2 ∧
      App.main true true dest walk fs = .ok (none, fs2)) ∧
    console_script_exit (some 1) = 1 ∧ console_script_exit none = 0 ∧
    run_as_script_exit (some 1) = 0 ∧ run_as_script_exit none = 0 := by
  obtain ⟨fs2, h2⟩ := delete_fs_total (walk.map fun pn => joinPathC pn.1 pn.2)
    (walkTarget (mkRun dest walk fs)) (mkRun dest walk fs)
  refine ⟨rfl, rfl, ⟨mkRun dest walk fs, fs2,
    make_links_eq_mkRun dest walk fs, h2, ?_⟩, rfl, rfl, rfl, rfl⟩
  simp only [App.main, make_links_eq_mkRun dest walk fs, h2]
  rfl
